import Mathlib

/-!
Verification of the ranking and series-preparation engine of the
Hyperliquid OI tracker (`app.py`).

The engine is embedded shallowly: pandas DataFrames become Lean lists of
rows, Python floats become exact rationals (`ℚ`), Python dicts become
`Option`-valued structures or lookup functions, and the metric / ranking /
downsampling code of `app.py` is translated statement by statement into
computable Lean functions.  Division in `ℚ` is total (`x / 0 = 0`); every
division in the source is protected by an explicit positivity guard, so the
totalization is never exercised on the guarded paths.
-/

namespace OITracker

/-- One raw observation row for a symbol: the `time`, `price`
(column `标记价格 (USDC)`) and open interest `oi` (column `未平仓量`) fields of
the per-symbol DataFrames produced by `fetch_bulk_data_one_shot`. -/
structure Row where
  time : ℚ
  price : ℚ
  oi : ℚ
deriving Repr, DecidableEq

/-- One record of the `circulating_supply` reference table, as returned by
`fetch_circulating_supply`: each field may be missing (`None`/NULL). -/
structure TokenInfo where
  circulating_supply : Option ℚ
  market_cap : Option ℚ
deriving Repr, DecidableEq

/-- One element of the `ranking_data` list built in `main_app`
(`{"symbol": ..., "intensity": ..., "oi_growth_usd": ..., "market_cap": ...}`). -/
structure RankingItem where
  symbol : String
  intensity : ℚ
  oi_growth_usd : ℚ
  market_cap : ℚ
deriving Repr, DecidableEq

/-- Helper for `sliceStep`: walk the list with a countdown counter, keeping an
element exactly when the counter is `0` and then restarting it at `step - 1`.
Starting the counter at `0` keeps the elements at positions
`0, step, 2*step, ...`, which is the semantics of Python's `l[::step]` for a
positive `step`. -/
def sliceStepAux (step : ℕ) : List α → ℕ → List α
  | [], _ => []
  | a :: rest, 0 => a :: sliceStepAux step rest (step - 1)
  | _ :: rest, n + 1 => sliceStepAux step rest n

/-- Python's `df.iloc[::step]` (for `step ≥ 1`): every `step`-th element of
`df`, starting at index 0. -/
def sliceStep (l : List α) (step : ℕ) : List α :=
  sliceStepAux step l 0

/-- The second — and, by Python shadowing, the effective — definition of
`downsample_data` (`app.py` lines 131–143):

    def downsample_data(df, target_points=400):
        if len(df) <= target_points: return df
        step = len(df) // target_points
        df_sampled = df.iloc[::step].copy()
        if df.index[-1] not in df_sampled.index:
            df_sampled = pd.concat([df_sampled, df.iloc[[-1]]])
        return df_sampled

The frames fed to it have pairwise-distinct index labels (they are grouped
slices of one row-numbered frame), so the label test
`df.index[-1] not in df_sampled.index` holds exactly when the last position
`len(df) - 1` is not one of the sampled positions `0, step, 2*step, ...`,
i.e. exactly when `(len(df) - 1) % step ≠ 0`.  `df.iloc[[-1]]` is the
one-row frame holding the last row, here `df.drop (df.length - 1)`. -/
def downsample_data (df : List α) (target_points : ℕ) : List α :=
  if df.length ≤ target_points then df
  else
    let step := df.length / target_points
    let df_sampled := sliceStep df step
    if (df.length - 1) % step = 0 then df_sampled
    else df_sampled ++ df.drop (df.length - 1)

/-- The first definition of `downsample_data` (`app.py` lines 103–107),
shadowed by the later one:

    def downsample_data(df, target_points=400):
        if len(df) <= target_points * 1.5:
            return df
        return df.iloc[::len(df)//target_points]

`len(df) <= target_points * 1.5` is the exact float comparison
`2 * len(df) ≤ 3 * target_points`. -/
def downsample_data_shadowed (df : List α) (target_points : ℕ) : List α :=
  if 2 * df.length ≤ 3 * target_points then df
  else sliceStep df (df.length / target_points)

/-- Python truthiness-plus-sign test `d.get(k) and d[k] > 0` on an optional
float: `None` and `0.0` are falsy, and a truthy value must additionally pass
`> 0`; so the test succeeds exactly on `some v` with `0 < v`. -/
def truthyPos : Option ℚ → Option ℚ
  | some v => if 0 < v then some v else none
  | none => none

/-- The three-tier intensity ladder of `main_app` (`app.py` lines 389–407),
returning the pair `(intensity, market_cap)` — `market_cap` stays at its
initialization `0` except in the first tier:

    intensity = 0
    market_cap = 0
    if token_info and token_info.get('market_cap') and token_info['market_cap'] > 0:
        market_cap = token_info['market_cap']
        intensity = oi_growth_usd / market_cap
    elif token_info and token_info.get('circulating_supply') and token_info['circulating_supply'] > 0:
        supply = token_info['circulating_supply']
        intensity = oi_growth_tokens / supply
    else:
        if min_oi > 0: intensity = (oi_growth_tokens / min_oi) * 0.1
-/
def intensityCap (token_info : Option TokenInfo)
    (oi_growth_tokens oi_growth_usd min_oi : ℚ) : ℚ × ℚ :=
  match token_info with
  | none => (if 0 < min_oi then oi_growth_tokens / min_oi * (1 / 10) else 0, 0)
  | some t =>
    match truthyPos t.market_cap with
    | some mc => (oi_growth_usd / mc, mc)
    | none =>
      match truthyPos t.circulating_supply with
      | some cs => (oi_growth_tokens / cs, 0)
      | none => (if 0 < min_oi then oi_growth_tokens / min_oi * (1 / 10) else 0, 0)

/-- The per-symbol metric computation of the `main_app` loop body
(`app.py` lines 373–421), for a series already known to have ≥ 2 rows:

    current_price = df['标记价格 (USDC)'].iloc[-1]
    min_oi = df['未平仓量'].min()
    current_oi = df['未平仓量'].iloc[-1]
    oi_growth_tokens = current_oi - min_oi
    oi_growth_usd = oi_growth_tokens * current_price
    ... (intensity ladder) ...
    ranking_data.append({...})

The `getD 0` defaults are never exercised by callers, which guard
`len(df) < 2` first. -/
def mkRankingItem (sym : String) (df : List Row) (token_info : Option TokenInfo) :
    RankingItem :=
  let current_price := (df.getLast?.map Row.price).getD 0
  let min_oi := ((df.map Row.oi).min?).getD 0
  let current_oi := (df.getLast?.map Row.oi).getD 0
  let oi_growth_tokens := current_oi - min_oi
  let oi_growth_usd := oi_growth_tokens * current_price
  let ic := intensityCap token_info oi_growth_tokens oi_growth_usd min_oi
  ⟨sym, ic.1, oi_growth_usd, ic.2⟩

/-- The `ranking_data` accumulation loop of `main_app` (`app.py` lines
365–421): iterate over `bulk_data.items()` in order, skip any symbol whose
series is empty or has fewer than 2 rows (`if df.empty or len(df) < 2:
continue`), and append the computed metrics for the rest.  `supply_data` is
the dict produced by `fetch_circulating_supply`, modelled as a lookup
function. -/
def computeRankingData (bulk_data : List (String × List Row))
    (supply_data : String → Option TokenInfo) : List RankingItem :=
  bulk_data.filterMap fun p =>
    if p.2.length < 2 then none
    else some (mkRankingItem p.1 p.2 (supply_data p.1))

/-- Stable insertion (descending on `key`): skip over strictly greater keys,
then place `a` in front — so an inserted element lands after every
previously-placed element of equal key. -/
def insertDescBy (key : α → ℚ) (a : α) : List α → List α
  | [] => [a]
  | b :: l => if key a < key b then b :: insertDescBy key a l else a :: b :: l

/-- Embedding of Python's `sorted(l, key=key, reverse=True)`.  CPython's sort
is specified by exactly three properties — it permutes its input, the output
is non-increasing on `key` (for `reverse=True`), and it is stable (elements
with equal keys keep their input order).  Those three properties determine
the output uniquely, and all three are proved below for this function
(`sortDescBy_perm`, `sortDescBy_pairwise`, `sortDescBy_filter_key`), so this
insertion sort is extensionally *the* function computed by the source. -/
def sortDescBy (key : α → ℚ) : List α → List α
  | [] => []
  | a :: l => insertDescBy key a (sortDescBy key l)

/-- `top_intensity = sorted(ranking_data, key=lambda x: x['intensity'], reverse=True)[:10]`
guarded by `if ranking_data:` (`app.py` lines 437–443). -/
def top_intensity (ranking_data : List RankingItem) : List RankingItem :=
  if ranking_data.isEmpty then []
  else (sortDescBy RankingItem.intensity ranking_data).take 10

/-- `top_whales = sorted(ranking_data, key=lambda x: x['oi_growth_usd'], reverse=True)[:10]`
guarded by `if ranking_data:` (`app.py` lines 439–445). -/
def top_whales (ranking_data : List RankingItem) : List RankingItem :=
  if ranking_data.isEmpty then []
  else (sortDescBy RankingItem.oi_growth_usd ranking_data).take 10

/-- The `shown_symbols` set of `main_app` (`app.py` lines 567–571): the
symbols of both top lists.  Python builds a `set`; only membership in it is
ever used, so it is modelled as the concatenation of the two symbol lists. -/
def shown_symbols (ti tw : List RankingItem) : List String :=
  ti.map RankingItem.symbol ++ tw.map RankingItem.symbol

/-- `remaining_symbols = [s for s in target_symbols if s not in shown_symbols]`
(`app.py` line 577). -/
def remaining_symbols (target_symbols : List String)
    (ti tw : List RankingItem) : List String :=
  target_symbols.filter fun s => !(decide (s ∈ shown_symbols ti tw))

/-- Directional-signal quadrants named by the spec (§4.3 rule 7).  No such
enumeration exists anywhere in `app.py`. -/
inductive Signal where
  | LongBuildup
  | ShortCovering
  | ShortBuildup
  | LongLiquidation
  | Neutral
deriving Repr, DecidableEq

/-- Modelled from the spec: §4.3 rule 5, `price_change_pct = (current_price -
series.first.price) / series.first.price` if `series.first.price > 0`, else
`0`.  The source computes no such quantity; this definition exists only to
state the claim about the (absent) signal classification. -/
def price_change_pct (df : List Row) : ℚ :=
  let first := (df.head?.map Row.price).getD 0
  let curr := (df.getLast?.map Row.price).getD 0
  if 0 < first then (curr - first) / first else 0

/-- Modelled from the spec: §4.3 rule 6, `oi_change_pct = (current_oi -
series.first.open_interest) / series.first.open_interest` if
`series.first.open_interest > 0`, else `0`.  The source computes no such
quantity. -/
def oi_change_pct (df : List Row) : ℚ :=
  let first := (df.head?.map Row.oi).getD 0
  let curr := (df.getLast?.map Row.oi).getD 0
  if 0 < first then (curr - first) / first else 0

/-- Modelled from the spec: §4.3 rule 7, the 2×2 sign classification of
`price_change_pct` and `oi_change_pct` with an epsilon dead-zone around zero.
The source computes no signal at all. -/
def signalSpec (eps : ℚ) (df : List Row) : Signal :=
  let p := price_change_pct df
  let o := oi_change_pct df
  if eps < p ∧ eps < o then .LongBuildup
  else if eps < p ∧ o < -eps then .ShortCovering
  else if p < -eps ∧ eps < o then .ShortBuildup
  else if p < -eps ∧ o < -eps then .LongLiquidation
  else .Neutral

/-- The derivation rules of spec §4.3, items 1–4, stated declaratively for
one symbol: the last fetched row and some `baseline` exist such that
`baseline` is a minimum of the open-interest column,
`oi_growth_tokens = current_oi - baseline_oi`,
`oi_growth_value = oi_growth_tokens * current_price`, and the intensity comes
from the first satisfied tier (A: positive market cap; B: else positive
circulating supply; C: else positive baseline, down-weighted by 0.1; else 0).
This is the specification side of claim C1; the code side is
`mkRankingItem`. -/
def MetricsSpec (sym : String) (df : List Row) (ti : Option TokenInfo) : Prop :=
  ∃ lastRow, df.getLast? = some lastRow ∧
  ∃ baseline, baseline ∈ df.map Row.oi ∧ (∀ x ∈ df.map Row.oi, baseline ≤ x) ∧
    ((mkRankingItem sym df ti).oi_growth_usd = (lastRow.oi - baseline) * lastRow.price ∧
     (∀ t mc, ti = some t → t.market_cap = some mc → 0 < mc →
        (mkRankingItem sym df ti).intensity = (lastRow.oi - baseline) * lastRow.price / mc ∧
        (mkRankingItem sym df ti).market_cap = mc) ∧
     ((¬ ∃ t mc, ti = some t ∧ t.market_cap = some mc ∧ 0 < mc) →
        ∀ t cs, ti = some t → t.circulating_supply = some cs → 0 < cs →
          (mkRankingItem sym df ti).intensity = (lastRow.oi - baseline) / cs) ∧
     ((¬ ∃ t mc, ti = some t ∧ t.market_cap = some mc ∧ 0 < mc) →
      (¬ ∃ t cs, ti = some t ∧ t.circulating_supply = some cs ∧ 0 < cs) →
      0 < baseline →
        (mkRankingItem sym df ti).intensity = (lastRow.oi - baseline) / baseline * (1 / 10)) ∧
     ((¬ ∃ t mc, ti = some t ∧ t.market_cap = some mc ∧ 0 < mc) →
      (¬ ∃ t cs, ti = some t ∧ t.circulating_supply = some cs ∧ 0 < cs) →
      ¬ 0 < baseline → (mkRankingItem sym df ti).intensity = 0))

/-! ### Basic facts about `sliceStep` -/

theorem sliceStepAux_eq_drop (step : ℕ) :
    ∀ (l : List α) (c : ℕ), sliceStepAux step l c = sliceStepAux step (l.drop c) 0
  | [], c => by simp [sliceStepAux]
  | a :: rest, 0 => rfl
  | a :: rest, n + 1 => by
    rw [show sliceStepAux step (a :: rest) (n + 1) = sliceStepAux step rest n from rfl,
      sliceStepAux_eq_drop step rest n]
    rfl

theorem sliceStep_nil (step : ℕ) : sliceStep ([] : List α) step = [] := rfl

theorem sliceStep_cons (step : ℕ) (a : α) (rest : List α) :
    sliceStep (a :: rest) step = a :: sliceStep (rest.drop (step - 1)) step := by
  show sliceStepAux step (a :: rest) 0 = _
  rw [show sliceStepAux step (a :: rest) 0 = a :: sliceStepAux step rest (step - 1) from rfl,
    sliceStepAux_eq_drop]
  rfl

theorem sliceStep_ne_nil (step : ℕ) (l : List α) (hl : l ≠ []) :
    sliceStep l step ≠ [] := by
  match l with
  | a :: rest => rw [sliceStep_cons]; exact List.cons_ne_nil a _

theorem sliceStep_one (l : List α) : sliceStep l 1 = l := by
  match l with
  | [] => rfl
  | a :: rest =>
    rw [sliceStep_cons]
    simp [sliceStep_one rest]

theorem sliceStep_length (step : ℕ) (hs : 1 ≤ step) (l : List α) (hl : l ≠ []) :
    (sliceStep l step).length = (l.length - 1) / step + 1 := by
  match l with
  | a :: rest =>
    rw [sliceStep_cons]
    have h0 : (a :: rest).length - 1 = rest.length := by simp
    by_cases hsmall : rest.drop (step - 1) = []
    · have hr : rest.length - (step - 1) = 0 := by
        simpa using congrArg List.length hsmall
      rw [hsmall, sliceStep_nil, h0, Nat.div_eq_of_lt (by omega)]
      rfl
    · have hrlen : 1 ≤ rest.length - (step - 1) := by
        have := List.length_pos.mpr hsmall
        simp only [List.length_drop] at this
        omega
      have hrec := sliceStep_length step hs (rest.drop (step - 1)) hsmall
      rw [List.length_drop] at hrec
      simp only [List.length_cons, hrec, Nat.add_sub_cancel]
      have h1 : rest.length - (step - 1) - 1 + step = rest.length := by omega
      have h2 : (rest.length - (step - 1) - 1 + step) / step
          = (rest.length - (step - 1) - 1) / step + 1 := Nat.add_div_right _ (by omega)
      rw [h1] at h2
      omega
termination_by l.length
decreasing_by
  simp only [List.length_drop, List.length_cons]
  omega

theorem getLast?_drop_of_lt {l : List α} {n : ℕ} (h : n < l.length) :
    (l.drop n).getLast? = l.getLast? := by
  rw [List.getLast?_eq_getElem?, List.getLast?_eq_getElem?, List.getElem?_drop,
    List.length_drop]
  congr 1
  omega

theorem drop_length_sub_one {l : List α} (hl : l ≠ []) :
    ∃ b, l.getLast? = some b ∧ l.drop (l.length - 1) = [b] := by
  match l with
  | [a] => exact ⟨a, rfl, rfl⟩
  | a :: b :: t =>
    obtain ⟨c, hc1, hc2⟩ := drop_length_sub_one (l := b :: t) (List.cons_ne_nil _ _)
    refine ⟨c, ?_, ?_⟩
    · rw [List.getLast?_cons_cons]; exact hc1
    · have hlen : (a :: b :: t).length - 1 = (b :: t).length - 1 + 1 := by
        simp only [List.length_cons]; omega
      rw [hlen, List.drop_succ_cons, hc2]

theorem sliceStep_getLast? (step : ℕ) (hs : 1 ≤ step) (l : List α) (hl : l ≠ [])
    (hmod : (l.length - 1) % step = 0) :
    (sliceStep l step).getLast? = l.getLast? := by
  match l with
  | a :: rest =>
    rw [sliceStep_cons]
    have h0 : (a :: rest).length - 1 = rest.length := by simp
    by_cases hsmall : rest.drop (step - 1) = []
    · have hr : rest.length - (step - 1) = 0 := by
        simpa using congrArg List.length hsmall
      rw [h0] at hmod
      have hrest : rest = [] := List.eq_nil_of_length_eq_zero (by
        have := Nat.mod_eq_of_lt (show rest.length < step by omega)
        omega)
      subst hrest
      rw [hsmall, sliceStep_nil]
    · have hne := sliceStep_ne_nil step _ hsmall
      obtain ⟨c, t, hct⟩ := List.exists_cons_of_ne_nil hne
      have hdrop_eq : rest.drop (step - 1) = (a :: rest).drop step := by
        obtain ⟨s', rfl⟩ : ∃ s', step = s' + 1 := ⟨step - 1, by omega⟩
        simp [List.drop_succ_cons]
      have hrestlen : 1 ≤ rest.length - (step - 1) := by
        have := List.length_pos.mpr hsmall
        simp only [List.length_drop] at this
        omega
      have hsteplt : step < (a :: rest).length := by
        simp only [List.length_cons]
        omega
      have hmod' : ((rest.drop (step - 1)).length - 1) % step = 0 := by
        rw [List.length_drop]
        have h1 : rest.length - (step - 1) - 1 + step = rest.length := by omega
        have h2 := Nat.add_mod_right (rest.length - (step - 1) - 1) step
        rw [h1] at h2
        rw [h0] at hmod
        omega
      have hrec := sliceStep_getLast? step hs (rest.drop (step - 1)) hsmall hmod'
      rw [hct, List.getLast?_cons_cons, ← hct, hrec, hdrop_eq,
        getLast?_drop_of_lt hsteplt]
termination_by l.length
decreasing_by
  simp only [List.length_drop, List.length_cons]
  omega

/-! ### Facts about `downsample_data` -/

theorem downsample_data_getLast? (l : List α) (k : ℕ) (hl : l ≠ []) (hk : 1 ≤ k) :
    (downsample_data l k).getLast? = l.getLast? := by
  unfold downsample_data
  by_cases hle : l.length ≤ k
  · simp [hle]
  · have hlen : k < l.length := by omega
    have hstep : 1 ≤ l.length / k := (Nat.one_le_div_iff (by omega)).mpr (by omega)
    simp only [if_neg hle]
    by_cases hmod : (l.length - 1) % (l.length / k) = 0
    · simp only [if_pos hmod]
      exact sliceStep_getLast? _ hstep l hl hmod
    · simp only [if_neg hmod]
      obtain ⟨b, hb1, hb2⟩ := drop_length_sub_one hl
      rw [hb2, List.getLast?_concat, hb1]

theorem downsample_data_length_le (l : List α) (k : ℕ) (hk : 1 ≤ k) :
    (downsample_data l k).length ≤ 2 * k := by
  unfold downsample_data
  by_cases hle : l.length ≤ k
  · simp only [if_pos hle]; omega
  · have hlen : k < l.length := by omega
    have hl : l ≠ [] := by
      intro hnil
      rw [hnil] at hlen
      simp at hlen
    set step := l.length / k with hstepdef
    have hstep : 1 ≤ step := (Nat.one_le_div_iff (by omega)).mpr (by omega)
    have hlslice := sliceStep_length step hstep l hl
    -- `l.length < k * (step + 1)`, hence `l.length - 1 ≤ k * step + k - 2`
    have hub : l.length < k * step + k := by
      have hdm := Nat.div_add_mod l.length k
      rw [← hstepdef] at hdm
      have hmod := Nat.mod_lt l.length (show 0 < k by omega)
      omega
    -- bound the number of sampled points
    have hm : (l.length - 1) / step ≤ 2 * k - 2 := by
      rcases Nat.lt_or_ge k 2 with hk1 | hk2
      · -- k = 1: step = l.length, so (l.length - 1) / step = 0
        have hk1' : k = 1 := by omega
        have : step = l.length := by rw [hstepdef, hk1', Nat.div_one]
        rw [this, Nat.div_eq_of_lt (by omega)]
        omega
      · have h1 : l.length - 1 ≤ k - 2 + step * k := by
          have : k * step = step * k := Nat.mul_comm k step
          omega
        have h2 : (l.length - 1) / step ≤ (k - 2 + step * k) / step :=
          Nat.div_le_div_right h1
        have h3 : (k - 2 + step * k) / step = (k - 2) / step + k :=
          Nat.add_mul_div_left _ _ (by omega)
        have h4 : (k - 2) / step ≤ k - 2 := Nat.div_le_self _ _
        omega
    by_cases hmod : (l.length - 1) % step = 0
    · simp only [if_neg hle, if_pos hmod, hlslice]
      omega
    · simp only [if_neg hle, if_neg hmod, List.length_append, hlslice, List.length_drop]
      omega

theorem downsample_data_length_sharp (l : List α) (k : ℕ) (hk : 2 ≤ k) :
    (downsample_data l k).length ≤ 2 * k - 1 := by
  unfold downsample_data
  by_cases hle : l.length ≤ k
  · simp only [if_pos hle]; omega
  · have hlen : k < l.length := by omega
    have hl : l ≠ [] := by
      intro hnil
      rw [hnil] at hlen
      simp at hlen
    set step := l.length / k with hstepdef
    have hstep : 1 ≤ step := (Nat.one_le_div_iff (by omega)).mpr (by omega)
    have hlslice := sliceStep_length step hstep l hl
    have hub : l.length < k * step + k := by
      have hdm := Nat.div_add_mod l.length k
      rw [← hstepdef] at hdm
      have hmod := Nat.mod_lt l.length (show 0 < k by omega)
      omega
    have hmle : (l.length - 1) / step ≤ (k - 2) / step + k := by
      have h1 : l.length - 1 ≤ k - 2 + step * k := by
        have : k * step = step * k := Nat.mul_comm k step
        omega
      have h2 : (l.length - 1) / step ≤ (k - 2 + step * k) / step :=
        Nat.div_le_div_right h1
      have h3 : (k - 2 + step * k) / step = (k - 2) / step + k :=
        Nat.add_mul_div_left _ _ (by omega)
      omega
    by_cases hmod : (l.length - 1) % step = 0
    · -- no explicit append: at most (k-2)/step + k + 1 ≤ 2k - 1 points
      simp only [if_neg hle, if_pos hmod, hlslice]
      have : (k - 2) / step ≤ k - 2 := Nat.div_le_self _ _
      omega
    · -- the appended case: here step ≥ 2, since (l.length - 1) % 1 = 0
      have hstep2 : 2 ≤ step := by
        rcases Nat.lt_or_ge step 2 with h | h
        · exfalso; have : step = 1 := by omega
          rw [this, Nat.mod_one] at hmod; exact hmod rfl
        · exact h
      simp only [if_neg hle, if_neg hmod, List.length_append, hlslice, List.length_drop]
      rcases Nat.lt_or_ge k 3 with hk2 | hk3
      · -- k = 2: the sampled prefix has at most 2 points
        have hk2' : k = 2 := by omega
        subst hk2'
        have hub2 : l.length - 1 ≤ 2 * step := by omega
        have hmlt : (l.length - 1) / step ≤ 1 := by
          rcases Nat.lt_or_ge (l.length - 1) (2 * step) with h | h
          · have : (l.length - 1) / step < 2 := by
              rw [Nat.div_lt_iff_lt_mul (by omega)]
              omega
            omega
          · exfalso
            have hEq : l.length - 1 = 2 * step := by omega
            have : (l.length - 1) % step = 0 := by
              rw [hEq, Nat.two_mul, Nat.add_mod_right, Nat.mod_self]
            exact hmod this
        omega
      · -- k ≥ 3: (k-2)/step ≤ (k-2)/2 ≤ k - 3
        have hdd : (k - 2) / step ≤ (k - 2) / 2 :=
          Nat.div_le_div_left hstep2 (by omega)
        have : (k - 2) / 2 ≤ k - 3 := by omega
        omega

theorem downsample_data_eq_self (l : List α) (k : ℕ) (hk : 1 ≤ k)
    (h : l.length / k ≤ 1) : downsample_data l k = l := by
  unfold downsample_data
  by_cases hle : l.length ≤ k
  · simp [hle]
  · have hstep : 1 ≤ l.length / k := (Nat.one_le_div_iff (by omega)).mpr (by omega)
    have hstep1 : l.length / k = 1 := by omega
    simp [if_neg hle, hstep1, sliceStep_one, Nat.mod_one]

theorem downsample_data_pair (a b : α) : downsample_data [a, b] 1 = [a, b] := by
  simp [downsample_data, sliceStep_cons, sliceStep_nil]

theorem downsample_data_one_struct (l : List α) (h : 2 ≤ l.length) :
    ∃ a b, downsample_data l 1 = [a, b] := by
  match l with
  | a :: rest =>
    have hl : (a :: rest) ≠ [] := List.cons_ne_nil _ _
    have hlen : 2 ≤ (a :: rest).length := h
    unfold downsample_data
    have hle : ¬ (a :: rest).length ≤ 1 := by omega
    have hstep : (a :: rest).length / 1 = (a :: rest).length := Nat.div_one _
    have hdropnil : rest.drop ((a :: rest).length - 1) = [] := by
      apply List.drop_eq_nil_of_le
      simp only [List.length_cons]
      omega
    have hslice : sliceStep (a :: rest) (a :: rest).length = [a] := by
      rw [sliceStep_cons, hdropnil, sliceStep_nil]
    have hmod : ¬ ((a :: rest).length - 1) % (a :: rest).length = 0 := by
      rw [Nat.mod_eq_of_lt (by omega)]
      omega
    obtain ⟨c, _, hc2⟩ := drop_length_sub_one hl
    refine ⟨a, c, ?_⟩
    simp only [if_neg hle, hstep, if_neg hmod, hslice, hc2]
    rfl

/-! ### Claims C3, C4, C5, C10: the downsampler -/

/-- C3: for every non-empty series `s` and every `target_points k ≥ 1`, the
last element of `downsample_data s k` equals the last element of `s` — the
most recent point is never dropped. -/
theorem claim_C3_downsample_last (s : List α) (k : ℕ) (hs : s ≠ []) (hk : 1 ≤ k) :
    (downsample_data s k).getLast? = s.getLast? :=
  downsample_data_getLast? s k hs hk

theorem claim_C3_downsample_last_witness :
    (([0, 1, 2, 3, 4, 5, 6, 7, 8, 9] : List ℕ) ≠ [] ∧ 1 ≤ 3) ∧
      (downsample_data [0, 1, 2, 3, 4, 5, 6, 7, 8, 9] 3).getLast? =
        ([0, 1, 2, 3, 4, 5, 6, 7, 8, 9] : List ℕ).getLast? :=
  ⟨⟨by decide, by decide⟩, claim_C3_downsample_last _ 3 (by decide) (by decide)⟩

/-- C4, counterexample: on the 5-point series with `target_points = 3` the
effective `downsample_data` keeps all 5 points (`step = 5 // 3 = 1`), and
`5 > max 3 1 + 1`, so the claimed bound `max(k,1) + 1` fails. -/
theorem claim_C4_counterexample :
    1 ≤ 3 ∧ (downsample_data ([0, 1, 2, 3, 4] : List ℕ) 3).length = 5 ∧
      ¬ (downsample_data ([0, 1, 2, 3, 4] : List ℕ) 3).length ≤ max 3 1 + 1 := by
  decide

/-- C4, amended: for every series `s` and `target_points k ≥ 1`, the length
of `downsample_data s k` is at most `2 * max k 1` (the integer stride
`step = len // k` can undershoot, leaving up to `2k - 1` sampled points for
`k ≥ 2` and 2 points for `k = 1`; the claimed `max(k,1) + 1` holds only in
the spec's own example, not in general). -/
theorem claim_C4_downsample_length (s : List α) (k : ℕ) (hk : 1 ≤ k) :
    (downsample_data s k).length ≤ 2 * max k 1 := by
  rw [Nat.max_eq_left hk]
  exact downsample_data_length_le s k hk

theorem claim_C4_downsample_length_witness :
    1 ≤ 3 ∧ (downsample_data ([0, 1, 2, 3, 4] : List ℕ) 3).length ≤ 2 * max 3 1 :=
  ⟨by decide, claim_C4_downsample_length _ 3 (by decide)⟩

/-- C5: downsampling is idempotent — for every series `s` with
`len(s) > k ≥ 1`, re-downsampling the downsampled series with the same
target is a no-op.  (For `k = 0` the Python code raises `ZeroDivisionError`
at `len(df) // target_points`, so `k ≥ 1` is the function's domain.) -/
theorem claim_C5_downsample_idempotent (s : List α) (k : ℕ) (hk : 1 ≤ k)
    (hlen : k < s.length) :
    downsample_data (downsample_data s k) k = downsample_data s k := by
  rcases Nat.lt_or_ge k 2 with hk1 | hk2
  · have hk1' : k = 1 := by omega
    subst hk1'
    obtain ⟨a, b, hab⟩ := downsample_data_one_struct s (by omega)
    rw [hab, downsample_data_pair]
  · have hlen2 : (downsample_data s k).length ≤ 2 * k - 1 :=
      downsample_data_length_sharp s k hk2
    have hdiv : (downsample_data s k).length / k ≤ 1 := by
      have hlt : (downsample_data s k).length < 2 * k := by omega
      have := (Nat.div_lt_iff_lt_mul (show 0 < k by omega)).mpr
        (show (downsample_data s k).length < 2 * k from hlt)
      omega
    exact downsample_data_eq_self _ k (by omega) hdiv

theorem claim_C5_downsample_idempotent_witness :
    (1 ≤ 2 ∧ 2 < ([0, 1, 2, 3, 4] : List ℕ).length) ∧
      downsample_data (downsample_data ([0, 1, 2, 3, 4] : List ℕ) 2) 2 =
        downsample_data ([0, 1, 2, 3, 4] : List ℕ) 2 :=
  ⟨⟨by decide, by decide⟩, claim_C5_downsample_idempotent _ 2 (by decide) (by decide)⟩

/-- C10, counterexample: at `s = [0,1,2]`, `k = 2` — which satisfies the
claimed range `k < len(s) ≤ 1.5k` — the effective (second) `downsample_data`
returns the series unchanged (`step = 3 // 2 = 1` keeps every element), so it
is *not* strictly shorter than `s` as the claim asserts. -/
theorem claim_C10_counterexample :
    (2 < ([0, 1, 2] : List ℕ).length ∧ 2 * ([0, 1, 2] : List ℕ).length ≤ 3 * 2) ∧
      downsample_data ([0, 1, 2] : List ℕ) 2 = [0, 1, 2] ∧
      ¬ (downsample_data ([0, 1, 2] : List ℕ) 2).length < ([0, 1, 2] : List ℕ).length := by
  decide

/-- C10, amended: the source defines `downsample_data` twice and the second
definition is the one in effect; the two are not extensionally equal — e.g.
on a 4-point series with `k = 2` the shadowed definition samples `[0, 2]`
with no last-element append while the effective one returns `[0, 2, 3]` —
but on the range `k < len(s) ≤ 1.5k` of the original claim both return `s`
unchanged (the shadowed one by its 1.5x slack test, the effective one
because `step = len // k = 1` keeps every element). -/
theorem claim_C10_two_defs (s : List α) (k : ℕ) (hk : 1 ≤ k) (h1 : k < s.length)
    (h2 : 2 * s.length ≤ 3 * k) :
    (downsample_data_shadowed s k = s ∧ downsample_data s k = s) ∧
      downsample_data_shadowed ([0, 1, 2, 3] : List ℕ) 2 ≠
        downsample_data ([0, 1, 2, 3] : List ℕ) 2 := by
  refine ⟨⟨?_, ?_⟩, by decide⟩
  · simp [downsample_data_shadowed, h2]
  · have hdiv : s.length / k ≤ 1 := by
      have hlt : s.length < 2 * k := by omega
      have := (Nat.div_lt_iff_lt_mul (show 0 < k by omega)).mpr
        (show s.length < 2 * k from hlt)
      omega
    exact downsample_data_eq_self s k hk hdiv

theorem claim_C10_two_defs_witness :
    (1 ≤ 2 ∧ 2 < ([0, 1, 2] : List ℕ).length ∧ 2 * ([0, 1, 2] : List ℕ).length ≤ 3 * 2) ∧
      ((downsample_data_shadowed ([0, 1, 2] : List ℕ) 2 = [0, 1, 2] ∧
          downsample_data ([0, 1, 2] : List ℕ) 2 = [0, 1, 2]) ∧
        downsample_data_shadowed ([0, 1, 2, 3] : List ℕ) 2 ≠
          downsample_data ([0, 1, 2, 3] : List ℕ) 2) :=
  ⟨⟨by decide, by decide, by decide⟩, claim_C10_two_defs _ 2 (by decide) (by decide) (by decide)⟩

/-! ### The three characterizing properties of `sortDescBy`

`sortDescBy key` permutes its input, produces a list that is non-increasing
on `key`, and preserves the relative order of elements with equal keys.
These are exactly the documented properties of CPython's
`sorted(l, key=key, reverse=True)` (a stable sort with inverted comparison —
`reverse=True` does *not* reverse ties), and they determine the output
uniquely, so they justify the embedding. -/

theorem insertDescBy_perm (key : α → ℚ) (a : α) (l : List α) :
    List.Perm (insertDescBy key a l) (a :: l) := by
  match l with
  | [] => exact List.Perm.refl _
  | b :: t =>
    by_cases h : key a < key b
    · rw [insertDescBy, if_pos h]
      exact ((insertDescBy_perm key a t).cons b).trans (List.Perm.swap a b t)
    · rw [insertDescBy, if_neg h]

theorem sortDescBy_perm (key : α → ℚ) (l : List α) :
    List.Perm (sortDescBy key l) l := by
  match l with
  | [] => exact List.Perm.refl _
  | a :: t =>
    exact (insertDescBy_perm key a (sortDescBy key t)).trans
      ((sortDescBy_perm key t).cons a)

theorem mem_insertDescBy {key : α → ℚ} {a x : α} {l : List α} :
    x ∈ insertDescBy key a l ↔ x = a ∨ x ∈ l := by
  rw [(insertDescBy_perm key a l).mem_iff, List.mem_cons]

theorem pairwise_insertDescBy {key : α → ℚ} (a : α) {l : List α}
    (hp : l.Pairwise (fun x y => key y ≤ key x)) :
    (insertDescBy key a l).Pairwise (fun x y => key y ≤ key x) := by
  match l with
  | [] => simp [insertDescBy]
  | b :: t =>
    rw [List.pairwise_cons] at hp
    obtain ⟨hb, ht⟩ := hp
    by_cases h : key a < key b
    · rw [insertDescBy, if_pos h, List.pairwise_cons]
      refine ⟨?_, pairwise_insertDescBy a ht⟩
      intro x hx
      rcases mem_insertDescBy.mp hx with rfl | hxt
      · exact le_of_lt h
      · exact hb x hxt
    · rw [insertDescBy, if_neg h, List.pairwise_cons]
      refine ⟨?_, List.pairwise_cons.mpr ⟨hb, ht⟩⟩
      intro x hx
      rcases List.mem_cons.mp hx with rfl | hxt
      · exact le_of_not_lt h
      · exact le_trans (hb x hxt) (le_of_not_lt h)

theorem sortDescBy_pairwise (key : α → ℚ) (l : List α) :
    (sortDescBy key l).Pairwise (fun x y => key y ≤ key x) := by
  match l with
  | [] => simp [sortDescBy]
  | a :: t => exact pairwise_insertDescBy a (sortDescBy_pairwise key t)

theorem filter_insertDescBy_ne {key : α → ℚ} {a : α} {c : ℚ} (l : List α)
    (ha : ¬ key a = c) :
    (insertDescBy key a l).filter (fun x => decide (key x = c)) =
      l.filter (fun x => decide (key x = c)) := by
  match l with
  | [] => simp [insertDescBy, ha]
  | b :: t =>
    by_cases h : key a < key b
    · rw [insertDescBy, if_pos h]
      simp only [List.filter_cons, filter_insertDescBy_ne t ha]
    · rw [insertDescBy, if_neg h]
      simp [List.filter_cons, ha]

theorem filter_insertDescBy_eq {key : α → ℚ} {a : α} {c : ℚ} (l : List α)
    (ha : key a = c) :
    (insertDescBy key a l).filter (fun x => decide (key x = c)) =
      a :: l.filter (fun x => decide (key x = c)) := by
  match l with
  | [] => simp [insertDescBy, ha]
  | b :: t =>
    by_cases h : key a < key b
    · have hb : ¬ key b = c := by
        intro hbc
        rw [ha, ← hbc] at h
        exact lt_irrefl _ h
      rw [insertDescBy, if_pos h]
      simp only [List.filter_cons, filter_insertDescBy_eq t ha]
      simp [hb]
    · rw [insertDescBy, if_neg h]
      simp [List.filter_cons, ha]

theorem sortDescBy_filter_key (key : α → ℚ) (l : List α) (c : ℚ) :
    (sortDescBy key l).filter (fun x => decide (key x = c)) =
      l.filter (fun x => decide (key x = c)) := by
  match l with
  | [] => rfl
  | a :: t =>
    by_cases ha : key a = c
    · rw [sortDescBy, filter_insertDescBy_eq _ ha, sortDescBy_filter_key key t c]
      simp [List.filter_cons, ha]
    · rw [sortDescBy, filter_insertDescBy_ne _ ha, sortDescBy_filter_key key t c]
      simp [List.filter_cons, ha]

theorem top_intensity_eq_take (R : List RankingItem) :
    top_intensity R = (sortDescBy RankingItem.intensity R).take 10 := by
  unfold top_intensity
  by_cases h : R.isEmpty
  · rw [if_pos h, List.isEmpty_iff.mp h]
    rfl
  · rw [if_neg h]

theorem top_whales_eq_take (R : List RankingItem) :
    top_whales R = (sortDescBy RankingItem.oi_growth_usd R).take 10 := by
  unfold top_whales
  by_cases h : R.isEmpty
  · rw [if_pos h, List.isEmpty_iff.mp h]
    rfl
  · rw [if_neg h]

theorem mem_of_mem_top_intensity {R : List RankingItem} {x : RankingItem}
    (h : x ∈ top_intensity R) : x ∈ R := by
  rw [top_intensity_eq_take] at h
  exact (sortDescBy_perm RankingItem.intensity R).mem_iff.mp (List.mem_of_mem_take h)

theorem mem_of_mem_top_whales {R : List RankingItem} {x : RankingItem}
    (h : x ∈ top_whales R) : x ∈ R := by
  rw [top_whales_eq_take] at h
  exact (sortDescBy_perm RankingItem.oi_growth_usd R).mem_iff.mp (List.mem_of_mem_take h)

/-! ### Claim C6: the two ranked views -/

/-- C6: each ranked view is the 10-element truncation of a stable descending
sort of the metrics list on its key: adjacent entries are in non-increasing
key order, at most 10 entries survive, and the underlying sort permutes the
metrics list while keeping elements of equal key in their pre-sort order
(stability, expressed as: filtering the sorted list by any key value gives
exactly the same sublist, in the same order, as filtering the input). -/
theorem claim_C6_ranked_views (ranking_data : List RankingItem) :
    ((∀ (i : ℕ) (h1 : i < (top_intensity ranking_data).length)
        (h2 : i + 1 < (top_intensity ranking_data).length),
        ((top_intensity ranking_data).get ⟨i + 1, h2⟩).intensity ≤
          ((top_intensity ranking_data).get ⟨i, h1⟩).intensity) ∧
      (top_intensity ranking_data).length ≤ 10 ∧
      top_intensity ranking_data = (sortDescBy RankingItem.intensity ranking_data).take 10 ∧
      List.Perm (sortDescBy RankingItem.intensity ranking_data) ranking_data ∧
      (∀ c : ℚ, (sortDescBy RankingItem.intensity ranking_data).filter
          (fun x => decide (x.intensity = c)) =
        ranking_data.filter (fun x => decide (x.intensity = c)))) ∧
    ((∀ (i : ℕ) (h1 : i < (top_whales ranking_data).length)
        (h2 : i + 1 < (top_whales ranking_data).length),
        ((top_whales ranking_data).get ⟨i + 1, h2⟩).oi_growth_usd ≤
          ((top_whales ranking_data).get ⟨i, h1⟩).oi_growth_usd) ∧
      (top_whales ranking_data).length ≤ 10 ∧
      top_whales ranking_data = (sortDescBy RankingItem.oi_growth_usd ranking_data).take 10 ∧
      List.Perm (sortDescBy RankingItem.oi_growth_usd ranking_data) ranking_data ∧
      (∀ c : ℚ, (sortDescBy RankingItem.oi_growth_usd ranking_data).filter
          (fun x => decide (x.oi_growth_usd = c)) =
        ranking_data.filter (fun x => decide (x.oi_growth_usd = c)))) := by
  constructor
  · refine ⟨?_, ?_, top_intensity_eq_take _, sortDescBy_perm _ _, fun c => sortDescBy_filter_key _ _ c⟩
    · have hp : (top_intensity ranking_data).Pairwise
          (fun x y => y.intensity ≤ x.intensity) := by
        rw [top_intensity_eq_take]
        exact (sortDescBy_pairwise _ _).sublist (List.take_sublist _ _)
      rw [List.pairwise_iff_get] at hp
      intro i h1 h2
      exact hp ⟨i, h1⟩ ⟨i + 1, h2⟩ (by simp)
    · rw [top_intensity_eq_take, List.length_take]
      exact min_le_left _ _
  · refine ⟨?_, ?_, top_whales_eq_take _, sortDescBy_perm _ _, fun c => sortDescBy_filter_key _ _ c⟩
    · have hp : (top_whales ranking_data).Pairwise
          (fun x y => y.oi_growth_usd ≤ x.oi_growth_usd) := by
        rw [top_whales_eq_take]
        exact (sortDescBy_pairwise _ _).sublist (List.take_sublist _ _)
      rw [List.pairwise_iff_get] at hp
      intro i h1 h2
      exact hp ⟨i, h1⟩ ⟨i + 1, h2⟩ (by simp)
    · rw [top_whales_eq_take, List.length_take]
      exact min_le_left _ _

theorem claim_C6_ranked_views_witness :
    (∀ (i : ℕ)
      (h1 : i < (top_intensity [⟨"A", 1, 5, 0⟩, ⟨"B", 2, 1, 0⟩]).length)
      (h2 : i + 1 < (top_intensity [⟨"A", 1, 5, 0⟩, ⟨"B", 2, 1, 0⟩]).length),
      ((top_intensity [⟨"A", 1, 5, 0⟩, ⟨"B", 2, 1, 0⟩]).get ⟨i + 1, h2⟩).intensity ≤
        ((top_intensity [⟨"A", 1, 5, 0⟩, ⟨"B", 2, 1, 0⟩]).get ⟨i, h1⟩).intensity) ∧
    (top_intensity [⟨"A", 1, 5, 0⟩, ⟨"B", 2, 1, 0⟩]).length ≤ 10 :=
  ⟨(claim_C6_ranked_views [⟨"A", 1, 5, 0⟩, ⟨"B", 2, 1, 0⟩]).1.1,
    (claim_C6_ranked_views [⟨"A", 1, 5, 0⟩, ⟨"B", 2, 1, 0⟩]).1.2.1⟩

/-! ### Claim C7: the deduplicated remainder list -/

/-- C7: the remainder equals the symbol universe minus the union of the two
view memberships, in the universe's original order (it is a sublist of the
universe); a symbol appearing in both views is removed exactly once — its
count in the remainder is 0, not some doubly-removed nonsense — and, for a
duplicate-free universe (the SQL `GROUP BY symbol` guarantees this), every
remainder symbol appears exactly once. -/
theorem claim_C7_remainder (target_symbols : List String)
    (ti tw : List RankingItem) (hnd : target_symbols.Nodup) :
    (∀ s, s ∈ remaining_symbols target_symbols ti tw ↔
        s ∈ target_symbols ∧ ¬ s ∈ ti.map RankingItem.symbol ∧
          ¬ s ∈ tw.map RankingItem.symbol) ∧
    List.Sublist (remaining_symbols target_symbols ti tw) target_symbols ∧
    (∀ s, s ∈ ti.map RankingItem.symbol → s ∈ tw.map RankingItem.symbol →
        (remaining_symbols target_symbols ti tw).count s = 0) ∧
    (∀ s, s ∈ remaining_symbols target_symbols ti tw →
        (remaining_symbols target_symbols ti tw).count s = 1) := by
  have hmem : ∀ s, s ∈ remaining_symbols target_symbols ti tw ↔
      s ∈ target_symbols ∧ ¬ s ∈ ti.map RankingItem.symbol ∧
        ¬ s ∈ tw.map RankingItem.symbol := by
    intro s
    simp [remaining_symbols, shown_symbols, List.mem_filter, not_or]
  refine ⟨hmem, List.filter_sublist _, ?_, ?_⟩
  · intro s hti htw
    rw [List.count_eq_zero]
    intro hs
    exact ((hmem s).mp hs).2.1 hti
  · intro s hs
    exact List.count_eq_one_of_mem (hnd.filter _) hs

theorem claim_C7_remainder_witness :
    ((["A", "B", "C"] : List String).Nodup) ∧
      (∀ s, s ∈ remaining_symbols ["A", "B", "C"] [⟨"A", 1, 5, 0⟩] [⟨"A", 1, 5, 0⟩] ↔
          s ∈ (["A", "B", "C"] : List String) ∧
            ¬ s ∈ ([⟨"A", 1, 5, 0⟩] : List RankingItem).map RankingItem.symbol ∧
            ¬ s ∈ ([⟨"A", 1, 5, 0⟩] : List RankingItem).map RankingItem.symbol) ∧
      (∀ s, s ∈ ([⟨"A", 1, 5, 0⟩] : List RankingItem).map RankingItem.symbol →
          s ∈ ([⟨"A", 1, 5, 0⟩] : List RankingItem).map RankingItem.symbol →
          (remaining_symbols ["A", "B", "C"] [⟨"A", 1, 5, 0⟩] [⟨"A", 1, 5, 0⟩]).count s = 0) :=
  ⟨by decide,
    (claim_C7_remainder ["A", "B", "C"] _ _ (by decide)).1,
    (claim_C7_remainder ["A", "B", "C"] _ _ (by decide)).2.2.1⟩

/-! ### Claim C8: short series are silently excluded -/

theorem nodup_keys_eq {β : Type _} {l : List (String × β)}
    (hnd : (l.map Prod.fst).Nodup) {a : String} {b c : β}
    (hb : (a, b) ∈ l) (hc : (a, c) ∈ l) : b = c := by
  match l with
  | [] => cases hb
  | p :: t =>
    rw [List.map_cons, List.nodup_cons] at hnd
    obtain ⟨hhead, htail⟩ := hnd
    rcases List.mem_cons.mp hb with rfl | hbt
    · rcases List.mem_cons.mp hc with h | hct
      · exact (congrArg Prod.snd h).symm
      · exact absurd (List.mem_map.mpr ⟨(a, c), hct, rfl⟩) hhead
    · rcases List.mem_cons.mp hc with rfl | hct
      · exact absurd (List.mem_map.mpr ⟨(a, b), hbt, rfl⟩) hhead
      · exact nodup_keys_eq htail hbt hct

/-- C8: a symbol whose fetched series is empty or has fewer than 2 points is
silently excluded from the metrics list — and hence from both ranked views.
`computeRankingData` is a total function on all inputs (no exception path,
no error report); the short symbol merely never appears. -/
theorem claim_C8_short_series_excluded (bulk_data : List (String × List Row))
    (supply_data : String → Option TokenInfo) (sym : String) (df : List Row)
    (hmem : (sym, df) ∈ bulk_data) (hshort : df.length < 2)
    (hkeys : (bulk_data.map Prod.fst).Nodup) :
    ¬ sym ∈ (computeRankingData bulk_data supply_data).map RankingItem.symbol ∧
    ¬ sym ∈ (top_intensity (computeRankingData bulk_data supply_data)).map
        RankingItem.symbol ∧
    ¬ sym ∈ (top_whales (computeRankingData bulk_data supply_data)).map
        RankingItem.symbol := by
  have hbase : ¬ sym ∈ (computeRankingData bulk_data supply_data).map
      RankingItem.symbol := by
    intro hcontra
    obtain ⟨item, hitem, hsymeq⟩ := List.mem_map.mp hcontra
    obtain ⟨p, hp, hfp⟩ := List.mem_filterMap.mp hitem
    by_cases hlen : p.2.length < 2
    · rw [if_pos hlen] at hfp
      cases hfp
    · rw [if_neg hlen] at hfp
      have hpitem : item = mkRankingItem p.1 p.2 (supply_data p.1) :=
        (Option.some.injEq .. ▸ hfp).symm
      have hp1 : p.1 = sym := by
        rw [hpitem] at hsymeq
        exact hsymeq
      have hpmem : (sym, p.2) ∈ bulk_data := by
        rw [← hp1]
        exact hp
      have : df = p.2 := nodup_keys_eq hkeys hmem hpmem
      rw [← this] at hlen
      exact hlen hshort
  refine ⟨hbase, ?_, ?_⟩
  · intro hcontra
    obtain ⟨item, hitem, hsymeq⟩ := List.mem_map.mp hcontra
    exact hbase (List.mem_map.mpr ⟨item, mem_of_mem_top_intensity hitem, hsymeq⟩)
  · intro hcontra
    obtain ⟨item, hitem, hsymeq⟩ := List.mem_map.mp hcontra
    exact hbase (List.mem_map.mpr ⟨item, mem_of_mem_top_whales hitem, hsymeq⟩)

theorem claim_C8_short_series_excluded_witness :
    ((("A", [(⟨0, 0, 0⟩ : Row)]) ∈
        ([("A", [⟨0, 0, 0⟩]), ("B", [⟨0, 1, 2⟩, ⟨1, 2, 3⟩])] :
          List (String × List Row))) ∧
      ([(⟨0, 0, 0⟩ : Row)].length < 2)) ∧
      ¬ "A" ∈ (computeRankingData
          [("A", [⟨0, 0, 0⟩]), ("B", [⟨0, 1, 2⟩, ⟨1, 2, 3⟩])]
          (fun _ => none)).map RankingItem.symbol :=
  ⟨⟨by simp, by simp⟩,
    (claim_C8_short_series_excluded
      [("A", [⟨0, 0, 0⟩]), ("B", [⟨0, 1, 2⟩, ⟨1, 2, 3⟩])] (fun _ => none)
      "A" [⟨0, 0, 0⟩] (by simp) (by simp) (by simp)).1⟩

/-! ### Claim C1: the metric derivation rules -/

theorem truthyPos_eq_none {x : Option ℚ} (h : ∀ v, x = some v → ¬ 0 < v) :
    truthyPos x = none := by
  cases x with
  | none => rfl
  | some v => simp [truthyPos, h v rfl]

theorem truthyPos_eq_some {v : ℚ} (h : 0 < v) : truthyPos (some v) = some v := by
  simp [truthyPos, h]

/-- C1: for every symbol whose series has at least 2 points, the computed
metrics satisfy the spec's derivation rules exactly (`MetricsSpec`):
`baseline_oi` is a minimum of the open-interest column, `current_oi` and
`current_price` come from the last point,
`oi_growth_value = (current_oi - baseline_oi) * current_price`, and intensity
is chosen by the first satisfied tier — and on the series
`[(1,10,100),(2,12,150),(3,11,140)]` with `market_cap = 1000` the result is
`oi_growth_value = 440` and `intensity = 0.44 = 11/25`. -/
theorem claim_C1_metrics :
    (∀ (sym : String) (df : List Row) (ti : Option TokenInfo),
        2 ≤ df.length → MetricsSpec sym df ti) ∧
      mkRankingItem "X" [⟨1, 10, 100⟩, ⟨2, 12, 150⟩, ⟨3, 11, 140⟩]
          (some ⟨none, some 1000⟩) = ⟨"X", 11 / 25, 440, 1000⟩ := by
  constructor
  · intro sym df ti hlen
    have hdf : df ≠ [] := by
      intro h
      rw [h] at hlen
      simp at hlen
    obtain ⟨lastRow, hlast, -⟩ := drop_length_sub_one hdf
    obtain ⟨bl, hbl⟩ : ∃ m, (df.map Row.oi).min? = some m := by
      match df with
      | r :: t =>
        exact Option.isSome_iff_exists.mp
          (List.isSome_min?_of_mem (a := r.oi) (l := (r :: t).map Row.oi) (by simp))
    have hblmem : bl ∈ df.map Row.oi :=
      List.min?_mem (fun a b => min_choice a b) hbl
    have hbllb : ∀ x ∈ df.map Row.oi, bl ≤ x :=
      (List.le_min?_iff (fun a b c => le_min_iff) hbl).mp le_rfl
    have hitem : mkRankingItem sym df ti =
        ⟨sym,
          (intensityCap ti (lastRow.oi - bl) ((lastRow.oi - bl) * lastRow.price) bl).1,
          (lastRow.oi - bl) * lastRow.price,
          (intensityCap ti (lastRow.oi - bl) ((lastRow.oi - bl) * lastRow.price) bl).2⟩ := by
      simp only [mkRankingItem, hlast, hbl, Option.map_some', Option.getD_some]
    refine ⟨lastRow, hlast, bl, hblmem, hbllb, ?_, ?_, ?_, ?_, ?_⟩
    · rw [hitem]
    · rintro t mc rfl hmc hpos
      rw [hitem]
      simp [intensityCap, hmc, truthyPos_eq_some hpos]
    · rintro hA t cs rfl hcs hpos
      have hAnone : truthyPos t.market_cap = none := by
        apply truthyPos_eq_none
        intro v hv hvpos
        exact hA ⟨t, v, rfl, hv, hvpos⟩
      rw [hitem]
      simp only [intensityCap, hAnone, hcs, truthyPos_eq_some hpos]
    · intro hA hB hpos
      rw [hitem]
      cases ti with
      | none => simp only [intensityCap, if_pos hpos]
      | some t =>
        have hAnone : truthyPos t.market_cap = none := by
          apply truthyPos_eq_none
          intro v hv hvpos
          exact hA ⟨t, v, rfl, hv, hvpos⟩
        have hBnone : truthyPos t.circulating_supply = none := by
          apply truthyPos_eq_none
          intro v hv hvpos
          exact hB ⟨t, v, rfl, hv, hvpos⟩
        simp only [intensityCap, hAnone, hBnone, if_pos hpos]
    · intro hA hB hpos
      rw [hitem]
      cases ti with
      | none => simp only [intensityCap, if_neg hpos]
      | some t =>
        have hAnone : truthyPos t.market_cap = none := by
          apply truthyPos_eq_none
          intro v hv hvpos
          exact hA ⟨t, v, rfl, hv, hvpos⟩
        have hBnone : truthyPos t.circulating_supply = none := by
          apply truthyPos_eq_none
          intro v hv hvpos
          exact hB ⟨t, v, rfl, hv, hvpos⟩
        simp only [intensityCap, hAnone, hBnone, if_neg hpos]
  · simp only [mkRankingItem, intensityCap, List.min?_cons, List.map_cons,
      List.map_nil, List.min?_nil, List.getLast?_cons_cons, List.getLast?_singleton]
    norm_num [truthyPos, min_def, RankingItem.mk.injEq]

theorem claim_C1_metrics_witness :
    2 ≤ ([⟨1, 10, 100⟩, ⟨2, 12, 150⟩, ⟨3, 11, 140⟩] : List Row).length ∧
      MetricsSpec "X" [⟨1, 10, 100⟩, ⟨2, 12, 150⟩, ⟨3, 11, 140⟩]
        (some ⟨none, some 1000⟩) :=
  ⟨by decide,
    claim_C1_metrics.1 "X" [⟨1, 10, 100⟩, ⟨2, 12, 150⟩, ⟨3, 11, 140⟩]
      (some ⟨none, some 1000⟩) (by decide)⟩

/-! ### Claim C2: there is no directional signal in the computed metrics -/

/-- C2, counterexample: two series with at least 2 points whose spec-side
directional signals differ (`LongBuildup` — price up, OI up — versus
`LongLiquidation` — price down, OI down; both changes are far outside any
small epsilon) yet whose computed metric records are *identical*.  The
record returned by the code holds only `symbol`, `intensity`,
`oi_growth_usd` and `market_cap`; it neither contains nor determines
`price_change_pct`, `oi_change_pct` or any signal, so the metric computation
does not return a record that includes a directional signal. -/
theorem claim_C2_counterexample :
    mkRankingItem "X" [⟨0, 10, 100⟩, ⟨1, 12, 140⟩] none =
        mkRankingItem "X" [⟨0, 20, 150⟩, ⟨1, 12, 100⟩, ⟨2, 12, 140⟩] none ∧
      signalSpec (1 / 100) [⟨0, 10, 100⟩, ⟨1, 12, 140⟩] = Signal.LongBuildup ∧
      signalSpec (1 / 100) [⟨0, 20, 150⟩, ⟨1, 12, 100⟩, ⟨2, 12, 140⟩] =
        Signal.LongLiquidation := by
  refine ⟨?_, ?_, ?_⟩
  · simp only [mkRankingItem, intensityCap, List.map_cons, List.map_nil,
      List.min?_cons, List.min?_nil, List.getLast?_cons_cons, List.getLast?_singleton]
    norm_num [min_def, RankingItem.mk.injEq]
  · simp only [signalSpec, price_change_pct, oi_change_pct,
      List.head?_cons, List.getLast?_cons_cons, List.getLast?_singleton]
    norm_num
  · simp only [signalSpec, price_change_pct, oi_change_pct,
      List.head?_cons, List.getLast?_cons_cons, List.getLast?_singleton]
    norm_num

/-- C2, amended: for every series with at least 2 points in the fetched
batch, the metric computation always succeeds — it is a total function with
no exception path — and contributes to the metrics list a fully-populated
record for that symbol carrying the four fields `symbol`, `intensity`,
`oi_growth_usd` and `market_cap`; no `price_change_pct`, `oi_change_pct` or
directional signal is computed anywhere in the source, and the returned
record does not determine one (see the counterexample). -/
theorem claim_C2_metrics_total (bulk_data : List (String × List Row))
    (supply_data : String → Option TokenInfo) (sym : String) (df : List Row)
    (hmem : (sym, df) ∈ bulk_data) (hlen : 2 ≤ df.length) :
    mkRankingItem sym df (supply_data sym) ∈ computeRankingData bulk_data supply_data ∧
      (mkRankingItem sym df (supply_data sym)).symbol = sym := by
  refine ⟨List.mem_filterMap.mpr ⟨(sym, df), hmem, ?_⟩, rfl⟩
  have h2 : ¬ (sym, df).2.length < 2 := by
    change ¬ df.length < 2
    omega
  rw [if_neg h2]

theorem claim_C2_metrics_total_witness :
    ((("B", [(⟨0, 1, 2⟩ : Row), ⟨1, 2, 3⟩]) ∈
        ([("B", [⟨0, 1, 2⟩, ⟨1, 2, 3⟩])] : List (String × List Row))) ∧
      2 ≤ ([(⟨0, 1, 2⟩ : Row), ⟨1, 2, 3⟩]).length) ∧
      (mkRankingItem "B" [⟨0, 1, 2⟩, ⟨1, 2, 3⟩] ((fun _ => none) "B") ∈
          computeRankingData [("B", [⟨0, 1, 2⟩, ⟨1, 2, 3⟩])] (fun _ => none) ∧
        (mkRankingItem "B" [⟨0, 1, 2⟩, ⟨1, 2, 3⟩] ((fun _ => none) "B")).symbol = "B") :=
  ⟨⟨by simp, by decide⟩,
    claim_C2_metrics_total [("B", [⟨0, 1, 2⟩, ⟨1, 2, 3⟩])] (fun _ => none)
      "B" [⟨0, 1, 2⟩, ⟨1, 2, 3⟩] (by simp) (by decide)⟩

end OITracker
